import Mathlib

/-!
# A shallow embedding of `advanced-vector` (src/advanced-vector/vector.h)

The C++ code implements a dynamic array `Vector<T>` on top of a raw memory
block `RawMemory<T>`.  We model a vector state by the list of its storage
slots together with the logical element count:

* a slot holds `some a` when a `T` instance is currently constructed there
  (placement-`new` writes `some`, a destructor call writes `none`), and
  `none` when the slot is raw uninitialized memory;
* `slots.length` is the capacity of the `RawMemory` block;
* `size` is the `size_` field of `Vector`.

Move construction / move assignment of an element is modelled value-wise:
the destination slot receives the value and the source slot stays
constructed (a moved-from C++ object is still alive until destroyed).
-/

namespace AdvVec

/-- State of `Vector<T>`: the raw storage slots (length = capacity,
`some` = constructed element, `none` = raw memory) and the element count. -/
structure Vec (α : Type) where
  slots : List (Option α)
  size : ℕ
  deriving Repr, DecidableEq

namespace Vec

/-- Capacity of the vector: the slot count of its `RawMemory` block. -/
def capacity (v : Vec α) : ℕ := v.slots.length

/-- `Vector() = default;` — empty vector, null buffer, capacity 0. -/
def empty (α : Type) : Vec α := ⟨[], 0⟩

/-- The capacity chosen by the reallocating paths:
`size_ == 0 ? 1 : size_ * 2` (vector.h lines 178, 268, 288). -/
def newCapacity (size : ℕ) : ℕ := if size = 0 then 1 else size * 2

/-- `std::uninitialized_copy_n / uninitialized_move_n (src + sp, n, dst + dp)`
between two distinct buffers: slot `dp + j` of `dst` receives the value of
slot `sp + j` of `src`, for `j < n`. -/
def copyRange (src : List (Option α)) (sp : ℕ) (dst : List (Option α))
    (dp : ℕ) : ℕ → List (Option α)
  | 0 => dst
  | n + 1 => copyRange src (sp + 1) (dst.set dp (src.getD sp none)) (dp + 1) n

/-- `std::destroy_n(buf + p, n)`: ends the lifetime of the `n` slots
starting at `p`. -/
def destroyRange (l : List (Option α)) (p : ℕ) : ℕ → List (Option α)
  | 0 => l
  | n + 1 => destroyRange (l.set p none) (p + 1) n

/-- `std::move(buf + dst + 1, buf + dst + 1 + n, buf + dst)`: forward
in-place left shift by one, `buf[dst+j] = std::move(buf[dst+j+1])`.
The source slots stay constructed (moved-from). -/
def moveForward1 (l : List (Option α)) (dst : ℕ) : ℕ → List (Option α)
  | 0 => l
  | n + 1 => moveForward1 (l.set dst (l.getD (dst + 1) none)) (dst + 1) n

/-- `std::move_backward(buf + first, buf + first + n, buf + first + n + 1)`:
backward in-place right shift by one, `buf[first+j+1] = std::move(buf[first+j])`,
processed from the top index down. -/
def moveBackward1 (l : List (Option α)) (first : ℕ) : ℕ → List (Option α)
  | 0 => l
  | n + 1 => moveBackward1 (l.set (first + n + 1) (l.getD (first + n) none)) first n

/-- `Vector::PushBack` (vector.h lines 266–283).  On growth: allocate
`newCapacity size_` raw slots, placement-construct the new element at
offset `size_`, transfer the `size_` existing elements (move or copy —
value-wise identical), destroy the old elements and swap storages. -/
def pushBack (v : Vec α) (x : α) : Vec α :=
  if v.size ≥ v.slots.length then
    let placed := (List.replicate (newCapacity v.size) none).set v.size (some x)
    ⟨copyRange v.slots 0 placed 0 v.size, v.size + 1⟩
  else
    ⟨v.slots.set v.size (some x), v.size + 1⟩

/-- `Vector::EmplaceBack` (vector.h lines 285–305): same state transform as
`PushBack` with the element constructed in place from `args...`. -/
def emplaceBack (v : Vec α) (x : α) : Vec α := pushBack v x

/-- One append, by `PushBack` (`true`) or `EmplaceBack` (`false`). -/
def appendOp (v : Vec α) : Bool × α → Vec α
  | (true, x) => pushBack v x
  | (false, x) => emplaceBack v x

/-- A sequence of appends starting from the default-constructed vector. -/
def appendSeq (ops : List (Bool × α)) : Vec α := ops.foldl appendOp (empty α)

/-- `Vector::Emplace(pos, args...)` (vector.h lines 172–220), success path,
with `dst = pos - cbegin()`.
* Reallocating path (`size_ >= Capacity()`): allocate `newCapacity size_`
  raw slots, construct the new element at offset `dst`, transfer the prefix
  `[0, dst)` to the new storage, transfer the suffix `[dst, size_)` to
  offsets `[dst+1, size_+1)`, destroy the old elements, swap storages.
* In-place path, `pos ≠ end()`: build a temporary from `args...`,
  move-construct the last element into the first free slot, shift
  `[dst, size_-1)` one slot right backwards, move-assign the temporary
  into slot `dst`.
* In-place path, `pos == end()`: construct in the next free slot.
Returns the new state and the returned iterator offset `dst`. -/
def emplace (v : Vec α) (dst : ℕ) (x : α) : Vec α × ℕ :=
  if v.size ≥ v.slots.length then
    let s1 := (List.replicate (newCapacity v.size) none).set dst (some x)
    let s2 := copyRange v.slots 0 s1 0 dst
    let s3 := copyRange v.slots dst s2 (dst + 1) (v.size - dst)
    (⟨s3, v.size + 1⟩, dst)
  else
    if dst ≠ v.size then
      let s1 := v.slots.set v.size (v.slots.getD (v.size - 1) none)
      let s2 := moveBackward1 s1 dst (v.size - 1 - dst)
      (⟨s2.set dst (some x), v.size + 1⟩, dst)
    else
      (⟨v.slots.set v.size (some x), v.size + 1⟩, dst)

/-- `Vector::Erase(pos)` (vector.h lines 230–239), `dst = pos - cbegin()`:
destroy the element at `dst`, move-assign the elements `[dst+1, size_)`
one slot left, decrement `size_`.  Returns the new state and the returned
iterator offset `dst`.  Note the source of the last move-assignment
(slot `size_ - 1`) stays constructed. -/
def eraseFull (v : Vec α) (dst : ℕ) : Vec α × ℕ :=
  let s1 := v.slots.set dst none
  let s2 := moveForward1 s1 dst (v.size - 1 - dst)
  (⟨s2, v.size - 1⟩, dst)

/-- The state after `Vector::Erase`. -/
def erase (v : Vec α) (dst : ℕ) : Vec α := (eraseFull v dst).1

/-- `Vector::Reserve(new_capacity)` (vector.h lines 312–326): no-op when
`new_capacity <= Capacity()`; otherwise allocate exactly `new_capacity`
raw slots, transfer the `size_` elements, destroy the old ones, swap. -/
def reserve (v : Vec α) (c : ℕ) : Vec α :=
  if c ≤ v.slots.length then v
  else ⟨copyRange v.slots 0 (List.replicate c none) 0 v.size, v.size⟩

/-- `Vector::Resize(new_size)` (vector.h lines 252–263): growing reserves
capacity if needed and value-constructs the new trailing slots; otherwise
the trailing elements beyond `new_size` are destroyed.  Also returns the
number of elements constructed and the number destroyed, the
instrumentation the spec asks for. -/
def resize [Inhabited α] (v : Vec α) (n : ℕ) : Vec α × ℕ × ℕ :=
  if v.size < n then
    let v1 := if v.slots.length < n then reserve v n else v
    (⟨copyRange (List.replicate (n - v.size) (some default)) 0 v1.slots v.size
        (n - v.size), n⟩, n - v.size, 0)
  else
    (⟨destroyRange v.slots n (v.size - n), n⟩, 0, v.size - n)

/-- `Vector::PopBack()` (vector.h lines 307–310). -/
def popBack (v : Vec α) : Vec α :=
  ⟨v.slots.set (v.size - 1) none, v.size - 1⟩

/-- The copy constructor `Vector(const Vector&)` (vector.h lines 107–112):
allocate exactly `other.size_` slots and copy-construct the elements. -/
def copyCtor (b : Vec α) : Vec α :=
  ⟨copyRange b.slots 0 (List.replicate b.size none) 0 b.size, b.size⟩

/-- The move constructor `Vector(Vector&&)` (vector.h lines 114–118):
steal the storage (source buffer becomes null with capacity 0) and
exchange the size with 0.  Returns (the new vector, the source after). -/
def moveCtor (b : Vec α) : Vec α × Vec α := (⟨b.slots, b.size⟩, ⟨[], 0⟩)

/-- Move assignment `operator=(Vector&&)` (vector.h lines 141–146) for two
distinct objects (`this != &rhs`): `Swap(rhs)`.  Returns (new lhs, new rhs). -/
def moveAssign (a b : Vec α) : Vec α × Vec α := (b, a)

/-- Copy assignment `operator=(const Vector&)` (vector.h lines 120–139) for
two distinct objects.  Capacity too small: copy-construct a temporary and
swap it in.  Otherwise copy-assign over the common prefix and either
destroy the excess elements or copy-construct the missing tail.
(`std::copy_n` and `std::uninitialized_copy_n` act identically on slot
values; only the lifetime bookkeeping differs.) -/
def copyAssign (a b : Vec α) : Vec α :=
  if a.slots.length < b.size then
    copyCtor b
  else
    if b.size < a.size then
      ⟨destroyRange (copyRange b.slots 0 a.slots 0 b.size) b.size
        (a.size - b.size), b.size⟩
    else
      ⟨copyRange b.slots a.size (copyRange b.slots 0 a.slots 0 a.size)
        a.size (b.size - a.size), b.size⟩

/-! ### Transfer-mode instrumentation

The reallocating paths of `PushBack`, `EmplaceBack`, `Emplace` and
`Reserve` each contain
`if constexpr (std::is_nothrow_move_constructible_v<T> || !std::is_copy_constructible_v<T>)`
choosing `std::uninitialized_move_n` over `std::uninitialized_copy_n`.
We record the choice as a function of the two traits and count, for each
operation, how many existing elements are transferred by move and how many
by copy. -/

/-- The condition of the `if constexpr` transfer dispatch:
`std::is_nothrow_move_constructible_v<T> || !std::is_copy_constructible_v<T>`. -/
def useMove (nothrowMove copyConstructible : Bool) : Bool :=
  nothrowMove || !copyConstructible

/-- (moved, copied) counts of existing-element transfers performed by
`Vector::PushBack` for a `T` with the given traits. -/
def pushBackOps (nm cc : Bool) (v : Vec α) : ℕ × ℕ :=
  if v.size ≥ v.slots.length then
    if useMove nm cc then (v.size, 0) else (0, v.size)
  else (0, 0)

/-- (moved, copied) counts of existing-element transfers performed by
`Vector::EmplaceBack`; its reallocation code is identical to `PushBack`. -/
def emplaceBackOps (nm cc : Bool) (v : Vec α) : ℕ × ℕ := pushBackOps nm cc v

/-- (moved, copied) counts of existing-element transfers performed by
`Vector::Emplace` (prefix of `dst` elements plus suffix of `size_ - dst`). -/
def emplaceOps (nm cc : Bool) (v : Vec α) (dst : ℕ) : ℕ × ℕ :=
  if v.size ≥ v.slots.length then
    if useMove nm cc then (dst + (v.size - dst), 0) else (0, dst + (v.size - dst))
  else (0, 0)

/-- (moved, copied) counts of existing-element transfers performed by
`Vector::Reserve`. -/
def reserveOps (nm cc : Bool) (v : Vec α) (c : ℕ) : ℕ × ℕ :=
  if c ≤ v.slots.length then (0, 0)
  else if useMove nm cc then (v.size, 0) else (0, v.size)

/-! ### Exception modelling

`std::uninitialized_copy_n` / `std::uninitialized_move_n` guarantee that if
constructing the `j`-th element throws, the `j` elements already
constructed by the call are destroyed before the exception propagates.
`uninitTransferN` models one such call where constructing element `throwAt`
throws: `.error s` is the destination buffer at the moment the exception
leaves the call. -/

def uninitTransferGo (src : List (Option α)) (sp : ℕ) (dst : List (Option α))
    (dp dp0 : ℕ) (throwAt : Option ℕ) (j : ℕ) :
    ℕ → Except (List (Option α)) (List (Option α))
  | 0 => .ok dst
  | n + 1 =>
    if throwAt = some j then .error (destroyRange dst dp0 (dp - dp0))
    else
      uninitTransferGo src (sp + 1) (dst.set dp (src.getD sp none)) (dp + 1)
        dp0 throwAt (j + 1) n

/-- Transfer `n` elements from `src + sp` into raw slots `dst + dp`;
constructing element `throwAt` (if `throwAt < n`) throws after the call
destroys its partially constructed output. -/
def uninitTransferN (src : List (Option α)) (sp : ℕ) (dst : List (Option α))
    (dp n : ℕ) (throwAt : Option ℕ) : Except (List (Option α)) (List (Option α)) :=
  uninitTransferGo src sp dst dp dp throwAt 0 n

/-- The reallocating path of `Vector::Emplace` (vector.h lines 177–202) with
exception injection.  `pThr` / `sThr` select an element of the prefix /
suffix transfer whose construction throws.  `.ok s` is the new storage on
success; `.error s` is the new storage at the moment the exception
propagates out of `Emplace` (after the `catch` handlers ran):
* prefix throw: `catch { std::destroy_at(new_data + dst); throw; }`
* suffix throw: `catch { std::destroy_n(new_data.GetAddress(), dst); throw; }` -/
def emplaceReallocE (old : List (Option α)) (size dst : ℕ) (x : α)
    (pThr sThr : Option ℕ) : Except (List (Option α)) (List (Option α)) :=
  let s1 := (List.replicate (newCapacity size) none).set dst (some x)
  match uninitTransferN old 0 s1 0 dst pThr with
  | .error s => .error (s.set dst none)
  | .ok s2 =>
    match uninitTransferN old dst s2 (dst + 1) (size - dst) sThr with
    | .error s => .error (destroyRange s 0 dst)
    | .ok s3 => .ok s3

/-- Number of live (constructed) slots in a storage block. -/
def liveCount (l : List (Option α)) : ℕ := l.countP Option.isSome

/-- Copy assignment with exception injection on the
`Vector rhs_copy(rhs); Swap(rhs_copy);` path: if copy-constructing element
`thr` of the temporary throws, `*this` is still exactly the original `a`.
The other branches do not build a temporary and are returned as-is. -/
def copyAssignE (a b : Vec α) (thr : Option ℕ) : Except (Vec α) (Vec α) :=
  if a.slots.length < b.size then
    match uninitTransferN b.slots 0 (List.replicate b.size none) 0 b.size thr with
    | .error _ => .error a
    | .ok s => .ok ⟨s, b.size⟩
  else .ok (copyAssign a b)

/-! ### The documented storage invariant -/

/-- The data-model invariant: `size ≤ capacity`, slots `[0, size)` hold
live constructed instances, slots `[size, capacity)` are raw memory. -/
def WF (v : Vec α) : Prop :=
  v.size ≤ v.slots.length ∧
  (∀ i < v.size, (v.slots.getD i none).isSome = true) ∧
  (∀ i < v.slots.length, v.size ≤ i → (v.slots.getD i none).isNone = true)

instance (v : Vec α) : Decidable (WF v) := by
  unfold WF
  infer_instance

/-! ### Pointwise characterization of the slot primitives -/

theorem getD_set' (l : List (Option α)) (i j : ℕ) (v : Option α) :
    (l.set i v).getD j none =
      if i = j ∧ i < l.length then v else l.getD j none := by
  by_cases hij : i = j
  · subst hij
    by_cases hlen : i < l.length
    · simp [List.getD, List.getElem?_set, hlen]
    · simp [List.getD, List.set_eq_of_length_le (Nat.le_of_not_lt hlen), hlen]
  · simp [List.getD, List.getElem?_set, hij]

theorem getD_of_length_le (l : List (Option α)) (j : ℕ) (h : l.length ≤ j) :
    l.getD j none = none := by
  simp [List.getD, List.getElem?_eq_none h]

@[simp] theorem copyRange_length (src : List (Option α)) (sp : ℕ)
    (dst : List (Option α)) (dp n : ℕ) :
    (copyRange src sp dst dp n).length = dst.length := by
  induction n generalizing sp dst dp with
  | zero => rfl
  | succ n ih => simp [copyRange, ih]

@[simp] theorem destroyRange_length (l : List (Option α)) (p n : ℕ) :
    (destroyRange l p n).length = l.length := by
  induction n generalizing l p with
  | zero => rfl
  | succ n ih => simp [destroyRange, ih]

@[simp] theorem moveForward1_length (l : List (Option α)) (dst n : ℕ) :
    (moveForward1 l dst n).length = l.length := by
  induction n generalizing l dst with
  | zero => rfl
  | succ n ih => simp [moveForward1, ih]

@[simp] theorem moveBackward1_length (l : List (Option α)) (first n : ℕ) :
    (moveBackward1 l first n).length = l.length := by
  induction n generalizing l with
  | zero => rfl
  | succ n ih => simp [moveBackward1, ih]

theorem copyRange_getD (src : List (Option α)) (sp : ℕ) (dst : List (Option α))
    (dp n : ℕ) (h : dp + n ≤ dst.length) (j : ℕ) :
    (copyRange src sp dst dp n).getD j none =
      if dp ≤ j ∧ j < dp + n then src.getD (sp + (j - dp)) none
      else dst.getD j none := by
  induction n generalizing sp dst dp with
  | zero => simp only [copyRange]; rw [if_neg (by omega)]
  | succ n ih =>
    have hlen : (dst.set dp (src.getD sp none)).length = dst.length := by simp
    rw [copyRange, ih _ _ _ (by omega)]
    rcases Nat.lt_trichotomy j dp with hj | hj | hj
    · rw [if_neg (by omega), if_neg (by omega), getD_set']
      rw [if_neg (by omega)]
    · subst hj
      rw [if_neg (by omega), if_pos (by omega), getD_set', if_pos ⟨rfl, by omega⟩]
      simp
    · by_cases hj2 : j < dp + (n + 1)
      · rw [if_pos (by omega), if_pos (by omega)]
        congr 1
        omega
      · rw [if_neg (by omega), if_neg (by omega), getD_set', if_neg (by omega)]

theorem destroyRange_getD (l : List (Option α)) (p n j : ℕ) :
    (destroyRange l p n).getD j none =
      if p ≤ j ∧ j < p + n then none else l.getD j none := by
  induction n generalizing l p with
  | zero => simp only [destroyRange]; rw [if_neg (by omega)]
  | succ n ih =>
    rw [destroyRange, ih]
    rcases Nat.lt_trichotomy j p with hj | hj | hj
    · rw [if_neg (by omega), if_neg (by omega), getD_set', if_neg (by omega)]
    · subst hj
      rw [if_neg (by omega), if_pos (by omega), getD_set']
      by_cases hlen : j < l.length
      · rw [if_pos ⟨rfl, hlen⟩]
      · rw [if_neg (by tauto), getD_of_length_le _ _ (by omega)]
    · by_cases hj2 : j < p + (n + 1)
      · rw [if_pos (by omega), if_pos (by omega)]
      · rw [if_neg (by omega), if_neg (by omega), getD_set', if_neg (by omega)]

theorem moveForward1_getD (l : List (Option α)) (dst n j : ℕ) :
    (moveForward1 l dst n).getD j none =
      if dst ≤ j ∧ j < dst + n then l.getD (j + 1) none else l.getD j none := by
  induction n generalizing l dst with
  | zero => simp only [moveForward1]; rw [if_neg (by omega)]
  | succ n ih =>
    rw [moveForward1, ih]
    rcases Nat.lt_trichotomy j dst with hj | hj | hj
    · rw [if_neg (by omega), if_neg (by omega), getD_set', if_neg (by omega)]
    · subst hj
      rw [if_neg (by omega), if_pos (by omega), getD_set']
      by_cases hlen : j < l.length
      · rw [if_pos ⟨rfl, hlen⟩]
      · rw [if_neg (by tauto), getD_of_length_le _ _ (by omega),
          getD_of_length_le _ _ (by omega)]
    · by_cases hj2 : j < dst + (n + 1)
      · rw [if_pos (by omega), if_pos (by omega), getD_set', if_neg (by omega)]
      · rw [if_neg (by omega), if_neg (by omega), getD_set', if_neg (by omega)]

theorem moveBackward1_getD (l : List (Option α)) (first n j : ℕ)
    (h : first + n < l.length) :
    (moveBackward1 l first n).getD j none =
      if first + 1 ≤ j ∧ j ≤ first + n then l.getD (j - 1) none
      else l.getD j none := by
  induction n generalizing l with
  | zero => simp only [moveBackward1]; rw [if_neg (by omega)]
  | succ n ih =>
    have hlen : (l.set (first + n + 1) (l.getD (first + n) none)).length = l.length := by
      simp
    rw [moveBackward1, ih _ (by omega)]
    rcases Nat.lt_trichotomy j (first + n + 1) with hj | hj | hj
    · by_cases hj2 : first + 1 ≤ j
      · rw [if_pos (by omega), if_pos (by omega), getD_set', if_neg (by omega)]
      · rw [if_neg (by omega), if_neg (by omega), getD_set', if_neg (by omega)]
    · subst hj
      rw [if_neg (by omega), if_pos (by omega), getD_set',
        if_pos ⟨rfl, by omega⟩]
      simp
    · rw [if_neg (by omega), if_neg (by omega), getD_set', if_neg (by omega)]

/-! ### Growth along the append path -/

theorem newCapacity_eq_max (s : ℕ) : newCapacity s = max 1 (2 * s) := by
  unfold newCapacity
  rcases s with _ | s
  · simp
  · simp
    omega

theorem size_pushBack (v : Vec α) (x : α) : (pushBack v x).size = v.size + 1 := by
  unfold pushBack
  split <;> rfl

theorem capacity_pushBack (v : Vec α) (x : α) :
    (pushBack v x).capacity =
      if v.size ≥ v.slots.length then newCapacity v.size else v.slots.length := by
  unfold pushBack capacity
  split <;> simp

theorem appendOp_eq (v : Vec α) (p : Bool × α) : appendOp v p = pushBack v p.2 := by
  rcases p with ⟨b, x⟩
  cases b <;> rfl

theorem appendSeq_size_capacity (ops : List (Bool × α)) :
    (appendSeq ops).size = ops.length ∧
    (appendSeq ops).capacity =
      if ops.length = 0 then 0 else 2 ^ Nat.clog 2 ops.length := by
  induction ops using List.reverseRecOn with
  | nil => exact ⟨rfl, rfl⟩
  | append_singleton ops p ih =>
    obtain ⟨hs, hc⟩ := ih
    have happ : appendSeq (ops ++ [p]) = pushBack (appendSeq ops) p.2 := by
      simp [appendSeq, appendOp_eq]
    have hlen : (ops ++ [p]).length = ops.length + 1 := by simp
    rw [happ, hlen]
    refine ⟨by rw [size_pushBack, hs], ?_⟩
    rw [capacity_pushBack, hs,
      show (appendSeq ops).slots.length = _ from hc,
      if_neg (Nat.succ_ne_zero ops.length)]
    rcases Nat.eq_zero_or_pos ops.length with h0 | hpos
    · rw [h0]
      simp [newCapacity, Nat.clog_one_right]
    · have hne : ops.length ≠ 0 := by omega
      rw [if_neg hne]
      have hkle : ops.length ≤ 2 ^ Nat.clog 2 ops.length :=
        Nat.le_pow_clog (by norm_num) ops.length
      by_cases hge : ops.length ≥ 2 ^ Nat.clog 2 ops.length
      · have heq : ops.length = 2 ^ Nat.clog 2 ops.length := le_antisymm hkle hge
        rw [if_pos hge]
        have hclog : Nat.clog 2 (ops.length + 1) = Nat.clog 2 ops.length + 1 := by
          apply le_antisymm
          · apply (Nat.le_pow_iff_clog_le (by norm_num)).mp
            rw [pow_succ, ← heq]
            omega
          · exact Nat.succ_le_of_lt
              ((Nat.pow_lt_iff_lt_clog (by norm_num)).mp (by omega))
        rw [hclog, pow_succ, ← heq]
        unfold newCapacity
        rw [if_neg hne]
      · rw [if_neg hge]
        have hclog : Nat.clog 2 (ops.length + 1) = Nat.clog 2 ops.length := by
          apply le_antisymm
          · exact (Nat.le_pow_iff_clog_le (by norm_num)).mp (by omega)
          · exact Nat.clog_mono_right 2 (by omega)
        rw [hclog]

/-- **C3**: starting from a default-constructed vector, after any sequence
of appends (`PushBack`/`EmplaceBack`) the size is the number of appends,
`capacity ≥ size`, the capacity is `0` before the first append and exactly
the least power of two that is `≥ size` afterwards (so the successive
distinct capacity values are exactly `1, 2, 4, 8, …`), and an append that
needs more room than the current capacity reallocates to
`max 1 (2 × size)`. -/
theorem C3_growth_policy (ops : List (Bool × α)) (x : α) :
    (appendSeq ops).size = ops.length ∧
    (appendSeq ops).size ≤ (appendSeq ops).capacity ∧
    (appendSeq ops).capacity =
      (if ops.length = 0 then 0 else 2 ^ Nat.clog 2 ops.length) ∧
    ((appendSeq ops).capacity ≤ (appendSeq ops).size →
      (pushBack (appendSeq ops) x).capacity = max 1 (2 * (appendSeq ops).size)) := by
  obtain ⟨hs, hc⟩ := appendSeq_size_capacity ops
  refine ⟨hs, ?_, hc, ?_⟩
  · rw [hs, hc]
    rcases Nat.eq_zero_or_pos ops.length with h0 | hpos
    · simp [h0]
    · rw [if_neg (by omega)]
      exact Nat.le_pow_clog (by norm_num) _
  · intro hful
    rw [capacity_pushBack,
      if_pos (show (appendSeq ops).size ≥ (appendSeq ops).slots.length from hful),
      newCapacity_eq_max]

/-- Witness for `C3_growth_policy` at a concrete input: after one append the
vector is full (capacity `1` = size `1`), and the next append reallocates
to capacity `2 = max 1 (2 × 1)`. -/
theorem C3_growth_policy_witness :
    ((appendSeq [(true, (0 : ℕ))]).capacity ≤ (appendSeq [(true, (0 : ℕ))]).size) ∧
    (pushBack (appendSeq [(true, (0 : ℕ))]) 1).capacity =
      max 1 (2 * (appendSeq [(true, (0 : ℕ))]).size) :=
  ⟨by decide, (C3_growth_policy [(true, (0 : ℕ))] 1).2.2.2 (by decide)⟩

/-! ### Move construction and move assignment (C2) -/

/-- **C2 counterexample**: `operator=(Vector&&)` is implemented as
`Swap(rhs)` (vector.h line 143), so after move-assigning `B = [2]` into
`A = [1]` the source `B` holds `A`'s old element and has size `1`, not
size `0` as the claim states. -/
theorem C2_moveAssign_not_empty :
    ¬ ((moveAssign (pushBack (empty ℕ) 1) (pushBack (empty ℕ) 2)).2.size = 0) := by
  decide

/-- **C2 (amended)**: move-assigning `B` into a distinct `A` swaps the two
states, so `A` receives `B`'s pre-move contents and `B` receives `A`'s
pre-move contents (`B` has size 0 only if `A` was empty); move-constructing
`A` from `B` gives `A` exactly `B`'s pre-move state and leaves `B` valid
and empty (size 0, capacity 0). -/
theorem C2_move_semantics (a b : Vec α) :
    (moveAssign a b).1 = b ∧ (moveAssign a b).2 = a ∧
    (moveCtor b).1 = b ∧ (moveCtor b).2.size = 0 ∧ (moveCtor b).2.capacity = 0 :=
  ⟨rfl, rfl, rfl, rfl, rfl⟩

/-! ### The transfer rule (C4) -/

/-- **C4**: whenever existing elements are transferred to new storage (the
reallocating paths of `PushBack`, `EmplaceBack`, `Emplace` and `Reserve`),
the `if constexpr` dispatch moves them exactly when `T` is nothrow-move-
constructible or not copy-constructible, and copies them otherwise; in
particular for a throwing-move but copy-constructible `T`
(`nm = false`, `cc = true`) every transferred element is copied and none
is moved. -/
theorem C4_transfer_rule (nm cc : Bool) (v : Vec α) (dst c : ℕ)
    (hgrow : v.size ≥ v.slots.length) (hc : v.slots.length < c) :
    (useMove nm cc = true ↔ nm = true ∨ cc = false) ∧
    pushBackOps nm cc v = (if useMove nm cc then (v.size, 0) else (0, v.size)) ∧
    emplaceBackOps nm cc v = pushBackOps nm cc v ∧
    emplaceOps nm cc v dst =
      (if useMove nm cc then (dst + (v.size - dst), 0)
       else (0, dst + (v.size - dst))) ∧
    reserveOps nm cc v c =
      (if useMove nm cc then (v.size, 0) else (0, v.size)) ∧
    (pushBackOps false true v).1 = 0 ∧
    (emplaceOps false true v dst).1 = 0 ∧
    (reserveOps false true v c).1 = 0 := by
  have hnc : ¬ c ≤ v.slots.length := by omega
  refine ⟨?_, ?_, rfl, ?_, ?_, ?_, ?_, ?_⟩ <;>
    simp [useMove, pushBackOps, emplaceOps, reserveOps, emplaceBackOps,
      hgrow, hnc]

/-- Witness for `C4_transfer_rule`: a full vector of one element with a
copyable, possibly-throwing-move `T` transfers by copy on growth. -/
theorem C4_transfer_rule_witness :
    (Vec.mk [some (1 : ℕ)] 1).size ≥ (Vec.mk [some (1 : ℕ)] 1).slots.length ∧
    (pushBackOps false true (Vec.mk [some (1 : ℕ)] 1)).1 = 0 :=
  ⟨by decide,
    (C4_transfer_rule false true (Vec.mk [some (1 : ℕ)] 1) 0 2
      (by decide) (by decide)).2.2.2.2.2.1⟩

/-! ### Reserve (C9) -/

/-- **C9**: `Reserve(c)` with `c ≤ Capacity()` is a complete no-op — the
state is unchanged and no element is moved or copied; with `c > Capacity()`
it allocates exactly `c` slots and preserves the size and every element
value. -/
theorem C9_reserve (v : Vec α) (c : ℕ) (nm cc : Bool)
    (h : v.size ≤ v.slots.length) :
    (c ≤ v.slots.length →
      reserve v c = v ∧ reserveOps nm cc v c = (0, 0)) ∧
    (v.slots.length < c →
      (reserve v c).slots.length = c ∧
      (reserve v c).size = v.size ∧
      (∀ j < v.size, (reserve v c).slots.getD j none = v.slots.getD j none)) := by
  constructor
  · intro hle
    unfold reserve reserveOps
    rw [if_pos hle, if_pos hle]
    exact ⟨rfl, rfl⟩
  · intro hlt
    have hnle : ¬ c ≤ v.slots.length := by omega
    unfold reserve
    rw [if_neg hnle]
    refine ⟨by simp, rfl, ?_⟩
    intro j hj
    rw [copyRange_getD _ _ _ _ _ (by simp; omega), if_pos (by omega)]
    simp

/-- Witness for `C9_reserve`: both branches at concrete inputs. -/
theorem C9_reserve_witness :
    (Vec.mk [some (1 : ℕ)] 1).size ≤ (Vec.mk [some (1 : ℕ)] 1).slots.length ∧
    (reserve (Vec.mk [some (1 : ℕ)] 1) 3).slots.length = 3 :=
  ⟨by decide,
    ((C9_reserve (Vec.mk [some (1 : ℕ)] 1) 3 true true (by decide)).2
      (by decide)).1⟩

/-! ### Resize (C8) -/

/-- **C8**: `Resize(m)` with `m < size` destroys exactly `size − m`
trailing elements (constructing none) and leaves the first `m` slots
unchanged; `Resize(k)` with `k > size` default-constructs exactly
`k − size` new trailing elements (destroying none), reserving capacity
first if needed and leaving the first `size` slots unchanged; in both
cases the size becomes the requested value. -/
theorem C8_resize [Inhabited α] (v : Vec α) (m k : ℕ)
    (h : v.size ≤ v.slots.length) :
    (m < v.size →
      (resize v m).1.size = m ∧
      (resize v m).2 = (0, v.size - m) ∧
      (∀ j < m, (resize v m).1.slots.getD j none = v.slots.getD j none)) ∧
    (v.size < k →
      (resize v k).1.size = k ∧
      (resize v k).2 = (k - v.size, 0) ∧
      (∀ j < v.size, (resize v k).1.slots.getD j none = v.slots.getD j none) ∧
      (∀ j, v.size ≤ j → j < k →
        (resize v k).1.slots.getD j none = some default)) := by
  constructor
  · intro hm
    have hnlt : ¬ v.size < m := by omega
    unfold resize
    rw [if_neg hnlt]
    refine ⟨rfl, rfl, ?_⟩
    intro j hj
    rw [destroyRange_getD, if_neg (by omega)]
  · intro hk
    unfold resize
    rw [if_pos hk]
    by_cases hsplit : v.slots.length < k
    · rw [if_pos hsplit]
      unfold reserve
      rw [if_neg (by omega)]
      have hinlen : (copyRange v.slots 0 (List.replicate k (none : Option α))
          0 v.size).length = k := by simp
      refine ⟨rfl, rfl, ?_, ?_⟩
      · intro j hj
        simp only
        rw [copyRange_getD _ _ _ _ _ (by rw [hinlen]; omega),
          if_neg (by omega),
          copyRange_getD _ _ _ _ _ (by simp; omega), if_pos (by omega)]
        simp
      · intro j hj1 hj2
        simp only
        rw [copyRange_getD _ _ _ _ _ (by rw [hinlen]; omega),
          if_pos (by omega)]
        have hrep : j - v.size < k - v.size := by omega
        simp [List.getD, List.getElem?_replicate, hrep]
    · rw [if_neg hsplit]
      refine ⟨rfl, rfl, ?_, ?_⟩
      · intro j hj
        simp only
        rw [copyRange_getD _ _ _ _ _ (by omega), if_neg (by omega)]
      · intro j hj1 hj2
        simp only
        rw [copyRange_getD _ _ _ _ _ (by omega), if_pos (by omega)]
        have hrep : j - v.size < k - v.size := by omega
        simp [List.getD, List.getElem?_replicate, hrep]

/-- Witness for `C8_resize`: `[1,2,3]`, `Resize(1)` destroys two elements
keeping `[1]`; `Resize(5)` constructs two new default elements. -/
theorem C8_resize_witness :
    (Vec.mk [some (1 : ℕ), some 2, some 3] 3).size
        ≤ (Vec.mk [some (1 : ℕ), some 2, some 3] 3).slots.length ∧
    (1 < 3 ∧ (resize (Vec.mk [some (1 : ℕ), some 2, some 3] 3) 1).2 = (0, 2)) ∧
    (3 < 5 ∧ (resize (Vec.mk [some (1 : ℕ), some 2, some 3] 3) 5).2 = (2, 0)) :=
  ⟨by decide,
    ⟨by decide,
      ((C8_resize (Vec.mk [some (1 : ℕ), some 2, some 3] 3) 1 5
        (by decide)).1 (by decide)).2.1⟩,
    ⟨by decide,
      ((C8_resize (Vec.mk [some (1 : ℕ), some 2, some 3] 3) 1 5
        (by decide)).2 (by decide)).2.1⟩⟩

/-! ### Emplace and Erase (C6, C10) -/

theorem newCapacity_ge (s : ℕ) : s + 1 ≤ newCapacity s := by
  unfold newCapacity
  split <;> omega

theorem size_emplace (v : Vec α) (k : ℕ) (x : α) :
    (emplace v k x).1.size = v.size + 1 := by
  unfold emplace
  split
  · rfl
  · split <;> rfl

theorem emplace_getD (v : Vec α) (k : ℕ) (x : α)
    (hlen : v.size ≤ v.slots.length) (hk : k ≤ v.size) (j : ℕ) (hj : j ≤ v.size) :
    (emplace v k x).1.slots.getD j none =
      if j < k then v.slots.getD j none
      else if j = k then some x
      else v.slots.getD (j - 1) none := by
  have hcap := newCapacity_ge v.size
  unfold emplace
  by_cases hre : v.size ≥ v.slots.length
  · rw [if_pos hre]
    simp only
    have hs1len : ((List.replicate (newCapacity v.size) (none : Option α)).set k
        (some x)).length = newCapacity v.size := by simp
    rw [copyRange_getD _ _ _ _ _ (by simp [hs1len]; omega),
      copyRange_getD _ _ _ _ _ (by simp [hs1len]; omega)]
    rcases Nat.lt_trichotomy j k with hjk | hjk | hjk
    · rw [if_neg (by omega), if_pos (by omega), if_pos hjk]
      simp
    · subst hjk
      rw [if_neg (by omega), if_neg (by omega), getD_set',
        if_pos ⟨rfl, by simp; omega⟩, if_neg (by omega), if_pos rfl]
    · rw [if_pos (by omega), if_neg (by omega), if_neg (by omega)]
      congr 1
      omega
  · rw [if_neg hre]
    have hszlt : v.size < v.slots.length := by omega
    by_cases hke : k ≠ v.size
    · rw [if_pos hke]
      simp only
      have hks : k < v.size := by omega
      have hs1len : (v.slots.set v.size (v.slots.getD (v.size - 1) none)).length
          = v.slots.length := by simp
      rw [getD_set']
      by_cases hjk : j = k
      · subst hjk
        rw [if_pos ⟨rfl, by simp [hs1len]; omega⟩, if_neg (by omega), if_pos rfl]
      · rw [if_neg (by tauto), moveBackward1_getD _ _ _ _ (by rw [hs1len]; omega)]
        rcases Nat.lt_trichotomy j k with hjk2 | hjk2 | hjk2
        · rw [if_neg (by omega), getD_set', if_neg (by omega), if_pos hjk2]
        · exact absurd hjk2 hjk
        · by_cases hjs : j ≤ v.size - 1
          · rw [if_pos (by omega), getD_set', if_neg (by omega),
              if_neg (by omega), if_neg (by omega)]
          · have hjeq : j = v.size := by omega
            rw [if_neg (by omega), getD_set', if_pos ⟨hjeq.symm, hszlt⟩,
              if_neg (by omega), if_neg (by omega)]
            congr 1
            omega
    · rw [if_neg hke]
      simp only
      have hkeq : k = v.size := by omega
      rw [getD_set']
      rcases Nat.lt_trichotomy j k with hjk | hjk | hjk
      · rw [if_neg (by omega), if_pos hjk]
      · rw [if_pos ⟨by omega, hszlt⟩, if_neg (by omega), if_pos hjk]
      · omega

theorem erase_getD (v : Vec α) (k j : ℕ) (hj : j < v.size - 1) :
    (erase v k).slots.getD j none =
      if k ≤ j then v.slots.getD (j + 1) none else v.slots.getD j none := by
  unfold erase eraseFull
  simp only
  rw [moveForward1_getD]
  by_cases hkj : k ≤ j
  · rw [if_pos (by omega), if_pos hkj, getD_set', if_neg (by omega)]
  · rw [if_neg (by omega), if_neg hkj, getD_set', if_neg (by omega)]

/-- **C6**: inserting a value at any valid offset `k` and then erasing at
offset `k` yields a vector element-wise equal to the original: the size is
restored and every slot in `[0, size)` holds its original value. -/
theorem C6_insert_erase (v : Vec α) (k : ℕ) (x : α)
    (hlen : v.size ≤ v.slots.length) (hk : k ≤ v.size) :
    (erase (emplace v k x).1 k).size = v.size ∧
    (∀ j < v.size,
      (erase (emplace v k x).1 k).slots.getD j none = v.slots.getD j none) := by
  have hsz := size_emplace v k x
  constructor
  · show (emplace v k x).1.size - 1 = v.size
    omega
  · intro j hj
    rw [erase_getD _ _ _ (by omega)]
    by_cases hkj : k ≤ j
    · rw [if_pos hkj, emplace_getD v k x hlen hk (j + 1) (by omega),
        if_neg (by omega), if_neg (by omega)]
      simp
    · rw [if_neg hkj, emplace_getD v k x hlen hk j (by omega),
        if_pos (by omega)]

/-- Witness for `C6_insert_erase`: inserting `9` at offset 1 of `[1,2]` and
erasing at offset 1 restores slot 1 to `2`. -/
theorem C6_insert_erase_witness :
    ((Vec.mk [some (1 : ℕ), some 2] 2).size
        ≤ (Vec.mk [some (1 : ℕ), some 2] 2).slots.length ∧ 1 ≤ 2) ∧
    (erase (emplace (Vec.mk [some (1 : ℕ), some 2] 2) 1 9).1 1).slots.getD 1 none
      = some 2 :=
  ⟨⟨by decide, by decide⟩,
    (C6_insert_erase (Vec.mk [some (1 : ℕ), some 2] 2) 1 9
      (by decide) (by decide)).2 1 (by decide)⟩

/-- **C10**: for a valid position `k < size`, `Erase` returns the iterator
at the same offset `k`; the vector shrinks by one, the slots before `k`
are unchanged, slot `k` afterwards holds the element that formerly
followed the erased one, and when the last element was erased the returned
offset equals the new size (i.e. `end()`). -/
theorem C10_erase_result (v : Vec α) (k : ℕ) (hk : k < v.size) :
    (eraseFull v k).2 = k ∧
    (eraseFull v k).1.size = v.size - 1 ∧
    (∀ j < k, (eraseFull v k).1.slots.getD j none = v.slots.getD j none) ∧
    (k < v.size - 1 →
      (eraseFull v k).1.slots.getD k none = v.slots.getD (k + 1) none) ∧
    (k = v.size - 1 → (eraseFull v k).2 = (eraseFull v k).1.size) := by
  refine ⟨rfl, rfl, ?_, ?_, ?_⟩
  · intro j hj
    have h2 : (eraseFull v k).1 = erase v k := rfl
    rw [h2, erase_getD _ _ _ (by omega), if_neg (by omega)]
  · intro hlast
    have h2 : (eraseFull v k).1 = erase v k := rfl
    rw [h2, erase_getD _ _ _ (by omega), if_pos (by omega)]
  · intro hlast
    show k = v.size - 1
    omega

/-- Witness for `C10_erase_result`: erasing at offset 0 of `[1,2]` returns
offset 0, which then holds the former second element `2`. -/
theorem C10_erase_result_witness :
    (0 < (Vec.mk [some (1 : ℕ), some 2] 2).size) ∧
    (eraseFull (Vec.mk [some (1 : ℕ), some 2] 2) 0).1.slots.getD 0 none
      = some 2 :=
  ⟨by decide,
    (C10_erase_result (Vec.mk [some (1 : ℕ), some 2] 2) 0 (by decide)).2.2.2.1
      (by decide)⟩

/-! ### Copy assignment (C7) -/

theorem uninitTransferGo_error (src : List (Option α)) (sp : ℕ)
    (dst : List (Option α)) (dp dp0 t j n : ℕ)
    (h1 : j ≤ t) (h2 : t < j + n) :
    ∃ s, uninitTransferGo src sp dst dp dp0 (some t) j n = .error s := by
  induction n generalizing sp dst dp j with
  | zero => omega
  | succ n ih =>
    rw [uninitTransferGo]
    by_cases hj : t = j
    · rw [if_pos (by rw [hj])]
      exact ⟨_, rfl⟩
    · rw [if_neg (by simp only [Option.some.injEq]; exact hj)]
      exact ih _ _ _ _ (by omega) (by omega)

/-- **C7**: copy-assigning `B` into a distinct `A` makes `A` element-wise
equal to `B` (same size, equal elements) — the source is only read, so `B`
is unchanged and the copy is deep, sharing nothing with `B`.  When
`B.size > A.capacity` the assignment copy-constructs a complete temporary
and swaps it in, so if copy-constructing any element of the temporary
throws, `A` is exactly as it was before the call. -/
theorem C7_copy_assign (a b : Vec α) (ha : a.size ≤ a.slots.length)
    (hb : b.size ≤ b.slots.length) :
    (copyAssign a b).size = b.size ∧
    (∀ j < b.size, (copyAssign a b).slots.getD j none = b.slots.getD j none) ∧
    (∀ t, a.slots.length < b.size → t < b.size →
      copyAssignE a b (some t) = .error a) := by
  refine ⟨?_, ?_, ?_⟩
  · unfold copyAssign copyCtor
    split
    · rfl
    · split <;> rfl
  · intro j hj
    unfold copyAssign
    by_cases h1 : a.slots.length < b.size
    · rw [if_pos h1]
      unfold copyCtor
      simp only
      rw [copyRange_getD _ _ _ _ _ (by simp), if_pos (by omega)]
      simp
    · rw [if_neg h1]
      by_cases h2 : b.size < a.size
      · rw [if_pos h2]
        simp only
        rw [destroyRange_getD, if_neg (by omega),
          copyRange_getD _ _ _ _ _ (by omega), if_pos (by omega)]
        simp
      · rw [if_neg h2]
        simp only
        rw [copyRange_getD _ _ _ _ _ (by simp; omega)]
        by_cases h3 : j < a.size
        · rw [if_neg (by omega), copyRange_getD _ _ _ _ _ (by omega),
            if_pos (by omega)]
          simp
        · rw [if_pos (by omega)]
          congr 1
          omega
  · intro t h1 h2
    obtain ⟨s, hs⟩ :=
      uninitTransferGo_error b.slots 0 (List.replicate b.size none) 0 0 t 0
        b.size (by omega) (by omega)
    unfold copyAssignE uninitTransferN
    rw [if_pos h1, hs]

/-- Witness for `C7_copy_assign`: assigning `[1,2]` into the full one-slot
vector `[9]` takes the temporary-and-swap path; a throwing element copy
leaves the target exactly `[9]`. -/
theorem C7_copy_assign_witness :
    ((Vec.mk [some (9 : ℕ)] 1).size ≤ (Vec.mk [some (9 : ℕ)] 1).slots.length ∧
      (Vec.mk [some (1 : ℕ), some 2] 2).size
        ≤ (Vec.mk [some (1 : ℕ), some 2] 2).slots.length) ∧
    copyAssignE (Vec.mk [some (9 : ℕ)] 1) (Vec.mk [some (1 : ℕ), some 2] 2)
      (some 0) = .error (Vec.mk [some (9 : ℕ)] 1) :=
  ⟨⟨by decide, by decide⟩,
    (C7_copy_assign (Vec.mk [some (9 : ℕ)] 1) (Vec.mk [some (1 : ℕ), some 2] 2)
      (by decide) (by decide)).2.2 0 (by decide) (by decide)⟩

/-! ### Exception safety of the reallocating Emplace (C1) -/

/-- **C1 (code bug)**: in `Emplace`'s reallocating path the second `catch`
(suffix transfer, vector.h lines 196–199) runs only
`std::destroy_n(new_data.GetAddress(), dst)`, which destroys the
transferred prefix but not the just-constructed new element at offset
`dst`; that element is leaked when `new_data` frees the raw block.
Concretely (first conjunct): on a full one-element vector, inserting at
offset 0 with the single suffix transfer throwing propagates with the new
element still constructed in new storage (`liveCount = 1`, a leak), while
the claim demands no leak.  The prefix-throw handler (second conjunct) is
correct: every constructed element of new storage is destroyed
(`liveCount = 0`). -/
theorem C1_emplace_suffix_throw_leaks :
    (emplaceReallocE [some (0 : ℕ)] 1 0 5 none (some 0)
        = .error [some 5, none] ∧
      liveCount [some (5 : ℕ), none] = 1) ∧
    (emplaceReallocE [some (0 : ℕ), some 1] 2 1 5 (some 0) none
        = .error [none, none, none, none] ∧
      liveCount ([none, none, none, none] : List (Option ℕ)) = 0) := by
  refine ⟨⟨rfl, rfl⟩, rfl, rfl⟩

/-! ### The storage invariant (C5) -/

/-- **C5 (code bug)**: `Erase` breaks the documented storage invariant.
It destroys the element at the erased position first, then shifts the
suffix left by move-assignment and decrements `size_`; the moved-from
last element is left constructed in slot `size` (now in
`[size, capacity)`), and its destructor never runs since destruction only
ever covers `[0, size_)`.  Concretely, after
`PushBack 1; PushBack 2; Erase(begin())` the state is size 1, capacity 2,
with slot 1 still holding a constructed element — not raw memory as the
claim requires of every reachable state. -/
theorem C5_erase_breaks_invariant :
    (erase (pushBack (pushBack (empty ℕ) 1) 2) 0).size = 1 ∧
    (erase (pushBack (pushBack (empty ℕ) 1) 2) 0).slots = [some 2, some 2] ∧
    ¬ WF (erase (pushBack (pushBack (empty ℕ) 1) 2) 0) := by
  refine ⟨?_, ?_, ?_⟩ <;> decide

end Vec

end AdvVec
